import Mathlib

/-!
Verification of the SplitWise expense-splitting core.

Shallow embedding of the split allocator (src/backend/app/utils/helpers.py,
src/backend/app/utils/validators.py, the split branches of
validate_and_create_splits in src/backend/app/api/expenses.py) and of the
balance and settlement engine (src/backend/app/services/balance_service.py).

Money is Python `Decimal`: exact decimal arithmetic, embedded as `ℚ`.
Participant identifiers are embedded as `ℕ`, display names as `String`.
-/

namespace SplitWise

/-- Error kinds raised by the allocator layer.
`invalidInput` embeds `ValueError` raised for structurally malformed input
(e.g. `split_amount_equally` with `num_participants <= 0`, or the pydantic
amount validator); `splitsSumMismatch actual expected` embeds the
`ValueError` of `validate_splits_equal_total`, whose message interpolates
the splits sum and the total; `percentageSumInvalid total` embeds the
HTTP 400 raised by the percentage branch of `validate_and_create_splits`,
whose message interpolates the percentage total. -/
inductive SplitError where
  | invalidInput (msg : String)
  | splitsSumMismatch (actual expected : ℚ)
  | percentageSumInvalid (total : ℚ)
deriving DecidableEq

/-- Round a rational to an integer using banker's rounding
(ROUND_HALF_EVEN): nearest integer, ties (`q` exactly halfway between its
floor and its ceiling) to the even integer.  This is the integer core of
`Decimal.quantize(..., ROUND_HALF_EVEN)`. -/
def rhedInt (q : ℚ) : ℤ :=
  let f : ℤ := Int.floor q
  if q < (f : ℚ) + 1/2 then f
  else if (f : ℚ) + 1/2 < q then f + 1
  else if f % 2 = 0 then f else f + 1

/-- Embeds `round_decimal` (helpers.py lines 10-29) at its default
`places = 2`: quantize to 2 decimal places with ROUND_HALF_EVEN. -/
def round_decimal (value : ℚ) : ℚ :=
  (rhedInt (value * 100) : ℚ) / 100

/-- Embeds `split_amount_equally` (helpers.py lines 32-65): base share is
`round_decimal (amount / n)`; all `n` shares start at the base; if the
shares do not sum to `amount`, the difference is added to the first share. -/
def split_amount_equally (amount : ℚ) (num_participants : ℤ) :
    Except SplitError (List ℚ) :=
  if num_participants ≤ 0 then
    .error (.invalidInput "Number of participants must be positive")
  else
    let base_amount := round_decimal (amount / (num_participants : ℚ))
    let splits := List.replicate num_participants.toNat base_amount
    let total_splits := splits.sum
    if total_splits ≠ amount then
      match splits with
      | [] => .ok []
      | x :: rest => .ok ((x + (amount - total_splits)) :: rest)
    else
      .ok splits

/-- Embeds the `validate_amount` field validator of `ExpenseBase`
(schemas/expense.py lines 77-83): rejects a non-positive expense amount. -/
def validate_amount (v : ℚ) : Except SplitError ℚ :=
  if v ≤ 0 then .error (.invalidInput "Amount must be positive")
  else .ok v

/-- Embeds `validate_splits_equal_total` (validators.py lines 28-47):
succeeds exactly when the split amounts sum to the total; the raised
`ValueError` message interpolates both the splits sum and the total,
carried here as the payload of `splitsSumMismatch`. -/
def validate_splits_equal_total (splits : List ℚ) (total : ℚ) :
    Except SplitError Bool :=
  let splits_sum := splits.sum
  if splits_sum ≠ total then .error (.splitsSumMismatch splits_sum total)
  else .ok true

/-- Embeds the `CUSTOM_AMOUNT` branch of `validate_and_create_splits`
(expenses.py lines 85-104): validate via `validate_splits_equal_total`,
then create one split per entry carrying exactly the provided amount. -/
def custom_amount_splits (amount : ℚ) (entries : List (ℕ × ℚ)) :
    Except SplitError (List (ℕ × ℚ)) :=
  match validate_splits_equal_total (entries.map Prod.snd) amount with
  | .error e => .error e
  | .ok _ => .ok entries

/-- Embeds the `PERCENTAGE` branch of `validate_and_create_splits`
(expenses.py lines 106-129): reject when the percentage sum differs from
100 by more than 0.01; otherwise each split amount is
`amount * percentage / 100` quantized to 2 decimal places with the default
`Decimal` context rounding, ROUND_HALF_EVEN.  No re-verification of the
resulting sum and no remainder correction is performed by the code. -/
def percentage_splits (amount : ℚ) (entries : List (ℕ × ℚ)) :
    Except SplitError (List (ℕ × ℚ × ℚ)) :=
  let total_percentage := (entries.map Prod.snd).sum
  if 1/100 < |total_percentage - 100| then
    .error (.percentageSumInvalid total_percentage)
  else
    .ok (entries.map (fun e => (e.1, round_decimal ((amount * e.2) / 100), e.2)))

/-- One split row as consumed by the balance aggregator
(models/expense_split.py): the participant it belongs to and its amount. -/
structure Split where
  participant_id : ℕ
  amount : ℚ
deriving DecidableEq

/-- One expense as consumed by the balance aggregator (models/expense.py):
payer, total amount, and the expense's split rows. -/
structure Expense where
  payer_id : ℕ
  amount : ℚ
  splits : List Split
deriving DecidableEq

/-- Total paid by participant `p`: the sum of the amounts of the expenses
whose payer is `p` (the first accumulation loop of
`calculate_participant_balances`, balance_service.py lines 62-64). -/
def total_paid (expenses : List Expense) (p : ℕ) : ℚ :=
  (expenses.map (fun e => if e.payer_id = p then e.amount else 0)).sum

/-- Total share owed by participant `p`: the sum of the amounts of all
splits whose participant is `p` (the second accumulation loop of
`calculate_participant_balances`, balance_service.py lines 73-75). -/
def total_share (expenses : List Expense) (p : ℕ) : ℚ :=
  (expenses.map
    (fun e => (e.splits.map
      (fun s => if s.participant_id = p then s.amount else 0)).sum)).sum

/-- Embeds `calculate_participant_balances` (balance_service.py lines
27-83) as its per-participant net balances: one entry per group
participant, `net_balance = total_paid - total_share`.  The code's
`if ... in balances` guards are captured by tabulating only over the
group's participant list. -/
def calculate_participant_balances (participants : List ℕ)
    (expenses : List Expense) : List (ℕ × ℚ) :=
  participants.map (fun p => (p, total_paid expenses p - total_share expenses p))

/-- A balance-mapping entry as consumed by `generate_settlement_suggestions`
and `is_group_settled`: participant id, display name and net balance
(one entry of the dictionary built by `calculate_participant_balances`;
dictionary order is the list order). -/
structure BalEntry where
  id : ℕ
  name : String
  net : ℚ
deriving DecidableEq

/-- A working creditor/debtor entry inside the settlement algorithm
(the `{"id": ..., "name": ..., "amount": ...}` dictionaries of
balance_service.py lines 180-190). -/
structure MatchEntry where
  id : ℕ
  name : String
  amount : ℚ
deriving DecidableEq

/-- A settlement suggestion (balance_service.py lines 209-216). -/
structure Settlement where
  from_participant_id : ℕ
  from_participant_name : String
  to_participant_id : ℕ
  to_participant_name : String
  amount : ℚ
  description : String
deriving DecidableEq

/-- Renders a money value with two decimal digits, as Python
`f"...{x:.2f}"` does on a `Decimal` (ROUND_HALF_EVEN quantization, then
sign, integer digits, point, two fractional digits). -/
def formatMoney (q : ℚ) : String :=
  let c := rhedInt (q * 100)
  let a := c.natAbs
  let sign := if c < 0 then "-" else ""
  let frac := a % 100
  let fracStr := if frac < 10 then "0" ++ toString frac else toString frac
  sign ++ toString (a / 100) ++ "." ++ fracStr

/-- Inserts an entry into a list sorted descending by `amount`, after all
entries with an amount ≥ its own (stable position). -/
def insertByAmountDesc (x : MatchEntry) : List MatchEntry → List MatchEntry
  | [] => [x]
  | y :: ys => if y.amount < x.amount then x :: y :: ys
               else y :: insertByAmountDesc x ys

/-- Embeds `list.sort(key=amount, reverse=True)` (balance_service.py lines
193-194): a stable descending sort by `amount`. -/
def sortByAmountDesc (l : List MatchEntry) : List MatchEntry :=
  l.foldr insertByAmountDesc []

/-- Embeds the two-pointer matching loop of
`generate_settlement_suggestions` (balance_service.py lines 199-227):
settle `min` of the two head amounts, emit the settlement, and advance a
pointer whenever its remaining amount drops below 0.01.  When the
creditor's remainder stays ≥ 0.01, the debtor's remainder is
`min - debtor = 0 < 0.01`, so only the debtor pointer advances. -/
def settleLoop : List MatchEntry → List MatchEntry → List Settlement
  | [], _ => []
  | _ :: _, [] => []
  | c :: cs, d :: ds =>
    let settle_amount := min c.amount d.amount
    let s : Settlement :=
      ⟨d.id, d.name, c.id, c.name, settle_amount,
        d.name ++ " pays " ++ c.name ++ " $" ++ formatMoney settle_amount⟩
    if c.amount - settle_amount < 1/100 then
      if d.amount - settle_amount < 1/100 then
        s :: settleLoop cs ds
      else
        s :: settleLoop cs (⟨d.id, d.name, d.amount - settle_amount⟩ :: ds)
    else
      s :: settleLoop (⟨c.id, c.name, c.amount - settle_amount⟩ :: cs) ds
termination_by cs ds => cs.length + ds.length
decreasing_by all_goals (simp; try omega)

/-- Embeds `generate_settlement_suggestions` (balance_service.py lines
145-228): partition the balance entries into creditors (`net > 0.01`) and
debtors (`net < -0.01`, stored as magnitude), sort both descending by
amount, then run the two-pointer matching loop. -/
def generate_settlement_suggestions (balances : List BalEntry) :
    List Settlement :=
  let creditors := (balances.filter (fun b => 1/100 < b.net)).map
    (fun b => MatchEntry.mk b.id b.name b.net)
  let debtors := (balances.filter (fun b => b.net < -(1/100))).map
    (fun b => MatchEntry.mk b.id b.name |b.net|)
  settleLoop (sortByAmountDesc creditors) (sortByAmountDesc debtors)

/-- Total settled amount reported by the `/settlements` endpoint
(balances.py lines 150-176): the sum of the suggestion amounts. -/
def total_settlement_amount (balances : List BalEntry) : ℚ :=
  ((generate_settlement_suggestions balances).map (·.amount)).sum

/-- Embeds `is_group_settled` (balance_service.py lines 230-241): `false`
as soon as one entry has `|net| > 0.01`, `true` otherwise. -/
def is_group_settled : List BalEntry → Bool
  | [] => true
  | b :: rest => if 1/100 < |b.net| then false else is_group_settled rest

example : round_decimal (10125/1000) = 1012/100 := by
  norm_num [round_decimal, rhedInt]
example : round_decimal (10135/1000) = 1014/100 := by
  norm_num [round_decimal, rhedInt]
example : split_amount_equally 100 3 =
    .ok [1667/50, 3333/100, 3333/100] := by
  norm_num [split_amount_equally, round_decimal, rhedInt, Int.toNat_ofNat,
    List.replicate]

/-- For a positive participant count the equal split always succeeds, and
the result is the base share plus the whole remainder, followed by
`n - 1` copies of the base share. -/
theorem split_amount_equally_eq_pos (amount : ℚ) (n : ℤ) (h : 0 < n) :
    split_amount_equally amount n =
      .ok ((round_decimal (amount / (n : ℚ)) +
            (amount - (n : ℚ) * round_decimal (amount / (n : ℚ)))) ::
          List.replicate (n - 1).toNat (round_decimal (amount / (n : ℚ)))) := by
  have hn0 : ¬ n ≤ 0 := by omega
  obtain ⟨m, hm⟩ : ∃ m, n.toNat = m + 1 := ⟨n.toNat - 1, by omega⟩
  have hm1 : (n - 1).toNat = m := by omega
  have hcast : ((n.toNat : ℚ)) = (n : ℚ) := by
    exact_mod_cast congrArg (fun z : ℤ => (z : ℚ)) (Int.toNat_of_nonneg h.le)
  set base := round_decimal (amount / (n : ℚ)) with hbase
  have hsum : (base :: List.replicate m base).sum = (n : ℚ) * base := by
    have hmq : ((m : ℚ)) = (n : ℚ) - 1 := by
      rw [← hcast, hm]; push_cast; ring
    rw [List.sum_cons, List.sum_replicate, nsmul_eq_mul, hmq]; ring
  simp only [split_amount_equally]
  rw [if_neg hn0]
  simp only [← hbase, hm, hm1, List.replicate_succ]
  by_cases htot : (base :: List.replicate m base).sum = amount
  · rw [if_neg (not_not_intro htot)]
    congr 2
    have : amount = (n : ℚ) * base := by rw [← htot, hsum]
    rw [← this]; ring
  · rw [if_pos htot]
    simp only [List.sum_cons]
    rw [show (base + (List.replicate m base).sum) = (n : ℚ) * base by
      rw [← List.sum_cons, hsum]]

/-- Any successful equal split has exactly `n` shares summing to the
amount. -/
theorem split_amount_equally_ok_sum (amount : ℚ) (n : ℤ) (h : 0 < n)
    (shares : List ℚ) (hs : split_amount_equally amount n = .ok shares) :
    shares.length = n.toNat ∧ shares.sum = amount := by
  rw [split_amount_equally_eq_pos amount n h] at hs
  obtain rfl := Except.ok.inj hs
  have hcast : (((n - 1).toNat : ℚ)) = (n : ℚ) - 1 := by
    have : ((n - 1).toNat : ℤ) = n - 1 := Int.toNat_of_nonneg (by omega)
    exact_mod_cast congrArg (fun z : ℤ => (z : ℚ)) this
  constructor
  · simp only [List.length_cons, List.length_replicate]
    omega
  · simp only [List.sum_cons, List.sum_replicate, nsmul_eq_mul, hcast]
    ring

/-- Claim C4: for every amount and every `n ≥ 1`, `split_amount_equally`
returns exactly `n` shares, all equal to
`round_decimal (amount / n)` except the first, which additionally absorbs
the remainder `amount - n * base`, so the shares sum exactly to the
amount; for `n ≤ 0` it fails with the `InvalidInput` error. -/
theorem equal_split_first_share_absorbs_remainder (amount : ℚ) (n : ℤ) :
    (n ≤ 0 → split_amount_equally amount n =
      .error (.invalidInput "Number of participants must be positive")) ∧
    (0 < n →
      split_amount_equally amount n =
        .ok ((round_decimal (amount / (n : ℚ)) +
              (amount - (n : ℚ) * round_decimal (amount / (n : ℚ)))) ::
            List.replicate (n - 1).toNat (round_decimal (amount / (n : ℚ)))) ∧
      ∀ shares, split_amount_equally amount n = .ok shares →
        shares.length = n.toNat ∧ shares.sum = amount) := by
  refine ⟨fun h => by simp [split_amount_equally, h], fun h => ?_⟩
  exact ⟨split_amount_equally_eq_pos amount n h,
    fun shares hs => split_amount_equally_ok_sum amount n h shares hs⟩

/-- Witness for C4 at the spec's own example, `amount = 100.00`, `n = 3`:
shares `[33.34, 33.33, 33.33]` summing to `100.00`. -/
theorem equal_split_first_share_absorbs_remainder_witness :
    split_amount_equally 100 3 = .ok [1667/50, 3333/100, 3333/100] ∧
    ([1667/50, 3333/100, 3333/100] : List ℚ).sum = 100 := by
  have h := (equal_split_first_share_absorbs_remainder 100 3).2 (by norm_num)
  refine ⟨?_, by norm_num⟩
  rw [h.1]
  norm_num [round_decimal, rhedInt, Int.toNat_ofNat, List.replicate]

/-- Counterexample to claim C5 as stated: the equal-split allocator does
NOT reject a non-positive total amount — `split_amount_equally` called
with amount `-5.00` and 2 participants returns shares `[-2.50, -2.50]`
instead of failing. -/
theorem equal_split_accepts_nonpositive_amount :
    split_amount_equally (-5) 2 = .ok [-(5/2), -(5/2)] := by
  norm_num [split_amount_equally, round_decimal, rhedInt, Int.toNat_ofNat,
    List.replicate]

/-- Claim C5 (amended): a non-positive total amount is rejected with the
`InvalidInput` error by the request-schema validator
(`ExpenseBase.validate_amount`), before any allocator runs; the
equal-split allocator itself performs no amount check and returns shares
for every amount whenever the participant count is positive. -/
theorem nonpositive_amount_rejected_by_schema :
    (∀ a : ℚ, a ≤ 0 →
      validate_amount a = .error (.invalidInput "Amount must be positive")) ∧
    (∀ (a : ℚ) (n : ℤ), 0 < n →
      ∃ shares, split_amount_equally a n = .ok shares) := by
  constructor
  · intro a ha
    simp [validate_amount, ha]
  · intro a n hn
    exact ⟨_, split_amount_equally_eq_pos a n hn⟩

/-- Witness for the amended C5 at amount `-5.00`: the schema validator
rejects it while the allocator (with 2 participants) still returns
shares. -/
theorem nonpositive_amount_rejected_by_schema_witness :
    validate_amount (-5) = .error (.invalidInput "Amount must be positive") ∧
    ∃ shares, split_amount_equally (-5) 2 = .ok shares :=
  ⟨nonpositive_amount_rejected_by_schema.1 (-5) (by norm_num),
   nonpositive_amount_rejected_by_schema.2 (-5) 2 (by norm_num)⟩

/-- Claim C6: the custom-amount split succeeds iff the provided amounts
sum exactly to the expense amount; on success the splits carry exactly
the provided entries, and on failure the error carries both the actual
splits sum and the expected total. -/
theorem custom_amount_splits_exact_sum (amount : ℚ) (entries : List (ℕ × ℚ)) :
    ((∃ r, custom_amount_splits amount entries = .ok r) ↔
      (entries.map Prod.snd).sum = amount) ∧
    ((entries.map Prod.snd).sum = amount →
      custom_amount_splits amount entries = .ok entries) ∧
    ((entries.map Prod.snd).sum ≠ amount →
      custom_amount_splits amount entries =
        .error (.splitsSumMismatch (entries.map Prod.snd).sum amount)) := by
  by_cases h : (entries.map Prod.snd).sum = amount
  · refine ⟨⟨fun _ => h, fun _ => ⟨entries, ?_⟩⟩, fun _ => ?_, fun hc => absurd h hc⟩ <;>
      simp [custom_amount_splits, validate_splits_equal_total, h]
  · refine ⟨⟨fun ⟨r, hr⟩ => ?_, fun hc => absurd hc h⟩, fun hc => absurd hc h, fun _ => ?_⟩
    · rw [show custom_amount_splits amount entries =
          .error (.splitsSumMismatch (entries.map Prod.snd).sum amount) by
        simp [custom_amount_splits, validate_splits_equal_total, h]] at hr
      exact absurd hr (by simp)
    · simp [custom_amount_splits, validate_splits_equal_total, h]

/-- Witness for C6 at the spec's rejection vector
`allocate_custom(100.00, [(A,40.00),(B,40.00)])`: the error carries
actual `80.00` and expected `100.00`; and at the exact vector
`[(A,60.00),(B,40.00)]` the provided entries are returned unchanged. -/
theorem custom_amount_splits_exact_sum_witness :
    custom_amount_splits 100 [(0, 40), (1, 40)] =
      .error (.splitsSumMismatch 80 100) ∧
    custom_amount_splits 100 [(0, 60), (1, 40)] = .ok [(0, 60), (1, 40)] := by
  constructor
  · have h := (custom_amount_splits_exact_sum 100 [(0, 40), (1, 40)]).2.2
      (by norm_num)
    rw [h]
    norm_num
  · exact (custom_amount_splits_exact_sum 100 [(0, 60), (1, 40)]).2.1 (by norm_num)

/-- Claim C7: the percentage split fails with the validation error exactly
when the percentage sum differs from 100 by more than 0.01, i.e. it is
accepted exactly when the sum lies in `[99.99, 100.01]`. -/
theorem percentage_splits_tolerance (amount : ℚ) (entries : List (ℕ × ℚ)) :
    ((∃ e, percentage_splits amount entries = .error e) ↔
      1/100 < |(entries.map Prod.snd).sum - 100|) ∧
    ((∃ r, percentage_splits amount entries = .ok r) ↔
      (9999/100 ≤ (entries.map Prod.snd).sum ∧
        (entries.map Prod.snd).sum ≤ 10001/100)) := by
  have hiff : ¬ (1/100 < |(entries.map Prod.snd).sum - 100|) ↔
      (9999/100 ≤ (entries.map Prod.snd).sum ∧
        (entries.map Prod.snd).sum ≤ 10001/100) := by
    rw [not_lt, abs_le]
    constructor <;> rintro ⟨h1, h2⟩ <;> constructor <;> linarith
  by_cases h : 1/100 < |(entries.map Prod.snd).sum - 100|
  · refine ⟨⟨fun _ => h,
      fun _ => ⟨.percentageSumInvalid (entries.map Prod.snd).sum, ?_⟩⟩,
      ⟨fun ⟨r, hr⟩ => ?_, fun hc => ?_⟩⟩
    · simp only [percentage_splits]
      rw [if_pos h]
    · rw [show percentage_splits amount entries =
          .error (.percentageSumInvalid (entries.map Prod.snd).sum) by
        simp only [percentage_splits]; rw [if_pos h]] at hr
      exact absurd hr (by simp)
    · exact absurd hc (by rw [← hiff]; exact fun hc2 => hc2 h)
  · refine ⟨⟨fun ⟨e, he⟩ => ?_, fun hc => absurd hc h⟩,
      ⟨fun _ => hiff.mp h, fun _ =>
        ⟨entries.map (fun e => (e.1, round_decimal ((amount * e.2) / 100), e.2)),
          ?_⟩⟩⟩
    · rw [show percentage_splits amount entries =
          .ok ((entries.map
            (fun e => (e.1, round_decimal ((amount * e.2) / 100), e.2)))) by
        simp only [percentage_splits]; rw [if_neg h]] at he
      exact absurd he (by simp)
    · simp only [percentage_splits]
      rw [if_neg h]

/-- Claim C1 (failing-input evaluation): at amount `90.00` and
percentages `[(A,50.00),(B,49.99)]` the percentage branch passes the
tolerance check (sum `99.99`) but produces shares `45.00` and `44.99`
summing to `89.99 ≠ 90.00`; the code applies no remainder correction, so
§3 invariant 1 fails for percentage splits. -/
theorem percentage_splits_drift_failing_input :
    percentage_splits 90 [(0, 50), (1, 4999/100)] =
      .ok [(0, 45, 50), (1, 4499/100, 4999/100)] ∧
    (([(0, 45, 50), (1, 4499/100, 4999/100)] : List (ℕ × ℚ × ℚ)).map
      (fun e => e.2.1)).sum = 8999/100 ∧
    (8999/100 : ℚ) ≠ 90 := by
  refine ⟨?_, by norm_num, by norm_num⟩
  have hcond : ¬ ((1:ℚ)/100 <
      |((([(0, 50), (1, 4999/100)] : List (ℕ × ℚ)).map Prod.snd).sum - 100)|) := by
    rw [show ((([(0, 50), (1, 4999/100)] : List (ℕ × ℚ)).map Prod.snd).sum - 100 : ℚ)
        = -(1/100) by norm_num,
      abs_neg, abs_of_pos (by norm_num : (0:ℚ) < 1/100)]
    exact lt_irrefl _
  simp only [percentage_splits]
  rw [if_neg hcond]
  norm_num [round_decimal, rhedInt]

/-- Claim C8: `is_group_settled` is `true` iff every participant's
absolute net balance is at most `0.01`; balances `{A: +0.01, B: -0.01}`
are settled while `{A: +0.02, B: -0.02}` are not. -/
theorem is_group_settled_iff_within_tolerance :
    (∀ balances : List BalEntry,
      is_group_settled balances = true ↔ ∀ b ∈ balances, |b.net| ≤ 1/100) ∧
    is_group_settled [⟨0, "A", 1/100⟩, ⟨1, "B", -(1/100)⟩] = true ∧
    is_group_settled [⟨0, "A", 2/100⟩, ⟨1, "B", -(2/100)⟩] = false := by
  have main : ∀ balances : List BalEntry,
      is_group_settled balances = true ↔ ∀ b ∈ balances, |b.net| ≤ 1/100 := by
    intro balances
    induction balances with
    | nil => simp [is_group_settled]
    | cons b rest ih =>
      have heq : is_group_settled (b :: rest) =
          if 1/100 < |b.net| then false else is_group_settled rest := rfl
      by_cases h : 1/100 < |b.net|
      · have h1 : is_group_settled (b :: rest) = false := by
          rw [heq, if_pos h]
        refine iff_of_false (by simp [h1]) ?_
        intro hall
        exact absurd (hall b (List.mem_cons_self b rest)) (not_le.mpr h)
      · have h1 : is_group_settled (b :: rest) = is_group_settled rest := by
          rw [heq, if_neg h]
        rw [h1, ih]
        constructor
        · intro hall x hx
          rcases List.mem_cons.mp hx with rfl | hx2
          · exact not_lt.mp h
          · exact hall x hx2
        · intro hall x hx
          exact hall x (List.mem_cons_of_mem b hx)
  refine ⟨main, ?_, ?_⟩
  · rw [main]
    intro b hb
    fin_cases hb
    · show |(1/100 : ℚ)| ≤ 1/100
      rw [abs_of_pos (by norm_num)]
    · show |(-(1/100) : ℚ)| ≤ 1/100
      rw [abs_neg, abs_of_pos (by norm_num)]
  · have hcond : (1:ℚ)/100 < |(2/100 : ℚ)| := by
      rw [abs_of_pos (by norm_num : (0:ℚ) < 2/100)]
      norm_num
    rw [show is_group_settled [⟨0, "A", 2/100⟩, ⟨1, "B", -(2/100)⟩] =
        (if (1:ℚ)/100 < |(2/100 : ℚ)| then false
         else is_group_settled [⟨1, "B", -(2/100)⟩]) from rfl,
      if_pos hcond]

theorem sum_map_add {α : Type} (l : List α) (f g : α → ℚ) :
    (l.map (fun a => f a + g a)).sum = (l.map f).sum + (l.map g).sum := by
  induction l with
  | nil => simp
  | cons x t ih => simp only [List.map_cons, List.sum_cons, ih]; ring

theorem sum_map_sub {α : Type} (l : List α) (f g : α → ℚ) :
    (l.map (fun a => f a - g a)).sum = (l.map f).sum - (l.map g).sum := by
  induction l with
  | nil => simp
  | cons x t ih => simp only [List.map_cons, List.sum_cons, ih]; ring

/-- Summing the indicator `if a = p then x else 0` over a duplicate-free
list containing `a` yields `x`. -/
theorem sum_map_ite_of_mem (l : List ℕ) (a : ℕ) (x : ℚ)
    (hnd : l.Nodup) (ha : a ∈ l) :
    (l.map (fun p => if a = p then x else 0)).sum = x := by
  induction l with
  | nil => cases ha
  | cons y t ih =>
    rcases List.mem_cons.mp ha with rfl | hat
    · have hnotin : a ∉ t := (List.nodup_cons.mp hnd).1
      have hz : (t.map (fun p => if a = p then x else 0)).sum = 0 := by
        apply List.sum_eq_zero
        intro z hz
        obtain ⟨p, hp, rfl⟩ := List.mem_map.mp hz
        rw [if_neg]
        rintro rfl
        exact hnotin hp
      simp [hz]
    · have hya : ¬ a = y := by
        rintro rfl
        exact (List.nodup_cons.mp hnd).1 hat
      simp only [List.map_cons, List.sum_cons, if_neg hya, zero_add]
      exact ih (List.nodup_cons.mp hnd).2 hat

/-- Summed over all group participants, `total_paid` is the total of the
expense amounts, provided every payer is a group participant. -/
theorem sum_total_paid (participants : List ℕ) (expenses : List Expense)
    (hnd : participants.Nodup)
    (hpayer : ∀ e ∈ expenses, e.payer_id ∈ participants) :
    (participants.map (fun p => total_paid expenses p)).sum =
      (expenses.map (·.amount)).sum := by
  induction expenses with
  | nil => simp [total_paid]
  | cons e t ih =>
    have hsplit : ∀ p : ℕ, total_paid (e :: t) p =
        (if e.payer_id = p then e.amount else 0) + total_paid t p := by
      intro p
      simp [total_paid]
    simp only [hsplit, sum_map_add]
    rw [sum_map_ite_of_mem participants e.payer_id e.amount hnd
        (hpayer e (List.mem_cons_self e t)),
      ih (fun e' he' => hpayer e' (List.mem_cons_of_mem e he'))]
    simp

/-- Summed over all group participants, the per-expense share indicators
recover the expense's split total, provided every split participant is a
group participant. -/
theorem sum_share_single (participants : List ℕ) (splits : List Split)
    (hnd : participants.Nodup)
    (hmem : ∀ s ∈ splits, s.participant_id ∈ participants) :
    (participants.map (fun p =>
      (splits.map (fun s => if s.participant_id = p then s.amount else 0)).sum)).sum =
      (splits.map (·.amount)).sum := by
  induction splits with
  | nil => simp
  | cons s t ih =>
    have hsplit : ∀ p : ℕ,
        ((s :: t).map (fun s' => if s'.participant_id = p then s'.amount else 0)).sum =
        (if s.participant_id = p then s.amount else 0) +
          (t.map (fun s' => if s'.participant_id = p then s'.amount else 0)).sum := by
      intro p
      simp
    simp only [hsplit, sum_map_add]
    rw [sum_map_ite_of_mem participants s.participant_id s.amount hnd
        (hmem s (List.mem_cons_self s t)),
      ih (fun s' hs' => hmem s' (List.mem_cons_of_mem s hs'))]
    simp

/-- Summed over all group participants, `total_share` is the total of all
split amounts of all expenses. -/
theorem sum_total_share (participants : List ℕ) (expenses : List Expense)
    (hnd : participants.Nodup)
    (hpart : ∀ e ∈ expenses, ∀ s ∈ e.splits, s.participant_id ∈ participants) :
    (participants.map (fun p => total_share expenses p)).sum =
      (expenses.map (fun e => (e.splits.map (·.amount)).sum)).sum := by
  induction expenses with
  | nil => simp [total_share]
  | cons e t ih =>
    have hsplit : ∀ p : ℕ, total_share (e :: t) p =
        (e.splits.map (fun s => if s.participant_id = p then s.amount else 0)).sum +
          total_share t p := by
      intro p
      simp [total_share]
    simp only [hsplit, sum_map_add]
    rw [sum_share_single participants e.splits hnd
        (hpart e (List.mem_cons_self e t)),
      ih (fun e' he' => hpart e' (List.mem_cons_of_mem e he'))]
    simp

/-- Under §3 invariant 1, the per-expense split totals sum to the total of
the expense amounts. -/
theorem sum_amounts_of_inv (expenses : List Expense)
    (hinv : ∀ e ∈ expenses, (e.splits.map (·.amount)).sum = e.amount) :
    (expenses.map (fun e => (e.splits.map (·.amount)).sum)).sum =
      (expenses.map (·.amount)).sum := by
  induction expenses with
  | nil => rfl
  | cons e t ih =>
    simp only [List.map_cons, List.sum_cons]
    rw [hinv e (List.mem_cons_self e t),
      ih (fun e' he' => hinv e' (List.mem_cons_of_mem e he'))]

/-- Claim C2: for every group whose expenses satisfy §3 invariant 1 (each
expense's split amounts sum exactly to its amount) and whose payers and
split participants all appear in the group's (duplicate-free) participant
list, the net balances computed by `calculate_participant_balances` sum to
exactly zero. -/
theorem net_balances_sum_to_zero (participants : List ℕ)
    (expenses : List Expense)
    (hnd : participants.Nodup)
    (hinv : ∀ e ∈ expenses, (e.splits.map (·.amount)).sum = e.amount)
    (hpayer : ∀ e ∈ expenses, e.payer_id ∈ participants)
    (hpart : ∀ e ∈ expenses, ∀ s ∈ e.splits, s.participant_id ∈ participants) :
    ((calculate_participant_balances participants expenses).map
      (fun b => b.2)).sum = 0 := by
  have hmaps : (calculate_participant_balances participants expenses).map
      (fun b => b.2) =
      participants.map (fun p => total_paid expenses p - total_share expenses p) := by
    simp [calculate_participant_balances]
  rw [hmaps,
    sum_map_sub participants (fun p => total_paid expenses p)
      (fun p => total_share expenses p),
    sum_total_paid participants expenses hnd hpayer,
    sum_total_share participants expenses hnd hpart,
    sum_amounts_of_inv expenses hinv, sub_self]

/-- Witness for C2: one expense of `90.00` paid by participant 0 and split
equally three ways over participants `[0, 1, 2]`; the net balances sum to
zero. -/
theorem net_balances_sum_to_zero_witness :
    ((calculate_participant_balances [0, 1, 2]
      [⟨0, 90, [⟨0, 30⟩, ⟨1, 30⟩, ⟨2, 30⟩]⟩]).map (fun b => b.2)).sum = 0 := by
  apply net_balances_sum_to_zero
  · decide
  · intro e he
    fin_cases he
    norm_num
  · intro e he
    fin_cases he
    decide
  · intro e he
    fin_cases he
    intro s hs
    fin_cases hs <;> decide

theorem insertByAmountDesc_perm (x : MatchEntry) (l : List MatchEntry) :
    (insertByAmountDesc x l).Perm (x :: l) := by
  induction l with
  | nil => exact List.Perm.refl _
  | cons y ys ih =>
    by_cases h : y.amount < x.amount
    · rw [insertByAmountDesc, if_pos h]
    · rw [insertByAmountDesc, if_neg h]
      exact (ih.cons y).trans (List.Perm.swap x y ys)

theorem sortByAmountDesc_perm (l : List MatchEntry) :
    (sortByAmountDesc l).Perm l := by
  induction l with
  | nil => exact List.Perm.refl _
  | cons x t ih =>
    exact (insertByAmountDesc_perm x (sortByAmountDesc t)).trans (ih.cons x)

/-- Every amount emitted by the two-pointer loop is at least the `0.01`
tolerance, provided every working entry carries at least that much. -/
theorem settleLoop_amount_ge (n : ℕ) :
    ∀ (cs ds : List MatchEntry), cs.length + ds.length ≤ n →
      (∀ e ∈ cs, 1/100 ≤ e.amount) → (∀ e ∈ ds, 1/100 ≤ e.amount) →
      ∀ s ∈ settleLoop cs ds, 1/100 ≤ s.amount := by
  induction n with
  | zero =>
    intro cs ds hlen hc hd s hs
    obtain rfl : cs = [] := List.length_eq_zero.mp (by omega)
    simp [settleLoop] at hs
  | succ n ih =>
    intro cs ds hlen hc hd s hs
    match cs, ds with
    | [], ds => simp [settleLoop] at hs
    | c :: cs', [] => simp [settleLoop] at hs
    | c :: cs', d :: ds' =>
      simp only [List.length_cons] at hlen
      have hch : 1/100 ≤ c.amount := hc c (List.mem_cons_self c cs')
      have hdh : 1/100 ≤ d.amount := hd d (List.mem_cons_self d ds')
      have hc' : ∀ e ∈ cs', 1/100 ≤ e.amount :=
        fun e he => hc e (List.mem_cons_of_mem c he)
      have hd' : ∀ e ∈ ds', 1/100 ≤ e.amount :=
        fun e he => hd e (List.mem_cons_of_mem d he)
      have hmin : 1/100 ≤ min c.amount d.amount := le_min hch hdh
      simp only [settleLoop] at hs
      by_cases h1 : c.amount - min c.amount d.amount < 1/100
      · rw [if_pos h1] at hs
        by_cases h2 : d.amount - min c.amount d.amount < 1/100
        · rw [if_pos h2] at hs
          rcases List.mem_cons.mp hs with rfl | hs2
          · exact hmin
          · exact ih cs' ds' (by omega) hc' hd' s hs2
        · rw [if_neg h2] at hs
          rcases List.mem_cons.mp hs with rfl | hs2
          · exact hmin
          · refine ih cs' (⟨d.id, d.name, d.amount - min c.amount d.amount⟩ :: ds')
              (by simp; omega) hc' ?_ s hs2
            intro e he
            rcases List.mem_cons.mp he with rfl | he2
            · exact not_lt.mp h2
            · exact hd' e he2
      · rw [if_neg h1] at hs
        rcases List.mem_cons.mp hs with rfl | hs2
        · exact hmin
        · refine ih (⟨c.id, c.name, c.amount - min c.amount d.amount⟩ :: cs') ds'
            (by simp; omega) ?_ hd' s hs2
          intro e he
          rcases List.mem_cons.mp he with rfl | he2
          · exact not_lt.mp h1
          · exact hc' e he2

/-- Every entry of the working creditor list carries an amount of at least
`0.01` (its net balance exceeds the tolerance). -/
theorem creditors_amount_ge (bs : List BalEntry) :
    ∀ e ∈ sortByAmountDesc ((bs.filter (fun b => 1/100 < b.net)).map
      (fun b => MatchEntry.mk b.id b.name b.net)), 1/100 ≤ e.amount := by
  intro e he
  have he2 := (sortByAmountDesc_perm _).mem_iff.mp he
  obtain ⟨b, hb, rfl⟩ := List.mem_map.mp he2
  have hcond := (List.mem_filter.mp hb).2
  exact le_of_lt (by simpa using hcond)

/-- Every entry of the working debtor list carries an amount of at least
`0.01` (the magnitude of its net balance exceeds the tolerance). -/
theorem debtors_amount_ge (bs : List BalEntry) :
    ∀ e ∈ sortByAmountDesc ((bs.filter (fun b => b.net < -(1/100))).map
      (fun b => MatchEntry.mk b.id b.name |b.net|)), 1/100 ≤ e.amount := by
  intro e he
  have he2 := (sortByAmountDesc_perm _).mem_iff.mp he
  obtain ⟨b, hb, rfl⟩ := List.mem_map.mp he2
  have hcond : b.net < -(1/100) := by simpa using (List.mem_filter.mp hb).2
  show 1/100 ≤ |b.net|
  rw [abs_of_neg (by linarith)]
  linarith

/-- Claim C9: for every balance mapping, every settlement suggestion has a
strictly positive amount — no entry with amount ≤ 0 is ever emitted. -/
theorem settlement_amounts_positive (bs : List BalEntry) :
    ∀ s ∈ generate_settlement_suggestions bs, 0 < s.amount := by
  intro s hs
  simp only [generate_settlement_suggestions] at hs
  have h := settleLoop_amount_ge
    ((sortByAmountDesc ((bs.filter (fun b => 1/100 < b.net)).map
      (fun b => MatchEntry.mk b.id b.name b.net))).length +
     (sortByAmountDesc ((bs.filter (fun b => b.net < -(1/100))).map
      (fun b => MatchEntry.mk b.id b.name |b.net|))).length)
    _ _ le_rfl (creditors_amount_ge bs) (debtors_amount_ge bs) s hs
  linarith

/-- Witness for C9 at balances `{A: +5.00, B: -5.00}`: the emitted
settlement `B pays A 5.00` has a positive amount. -/
theorem settlement_amounts_positive_witness :
    0 < (Settlement.mk 1 "B" 0 "A" 5 "B pays A $5.00").amount := by
  apply settlement_amounts_positive [⟨0, "A", 5⟩, ⟨1, "B", -5⟩]
  have habs : |(-5 : ℚ)| = 5 := by
    rw [abs_of_neg (by norm_num : (-5:ℚ) < 0)]
    norm_num
  norm_num [generate_settlement_suggestions, sortByAmountDesc,
    insertByAmountDesc, settleLoop, habs, formatMoney, rhedInt]
  decide

/-- Every settlement emitted by the two-pointer loop takes its creditor
(`to`) id from the creditor list and its debtor (`from`) id from the
debtor list. -/
theorem settleLoop_ids (n : ℕ) :
    ∀ (cs ds : List MatchEntry), cs.length + ds.length ≤ n →
      ∀ s ∈ settleLoop cs ds,
        s.to_participant_id ∈ cs.map (·.id) ∧
        s.from_participant_id ∈ ds.map (·.id) := by
  induction n with
  | zero =>
    intro cs ds hlen s hs
    obtain rfl : cs = [] := List.length_eq_zero.mp (by omega)
    simp [settleLoop] at hs
  | succ n ih =>
    intro cs ds hlen s hs
    match cs, ds with
    | [], ds => simp [settleLoop] at hs
    | c :: cs', [] => simp [settleLoop] at hs
    | c :: cs', d :: ds' =>
      simp only [List.length_cons] at hlen
      simp only [settleLoop] at hs
      by_cases h1 : c.amount - min c.amount d.amount < 1/100
      · rw [if_pos h1] at hs
        by_cases h2 : d.amount - min c.amount d.amount < 1/100
        · rw [if_pos h2] at hs
          rcases List.mem_cons.mp hs with rfl | hs2
          · exact ⟨List.mem_cons_self _ _, List.mem_cons_self _ _⟩
          · obtain ⟨hto, hfrom⟩ := ih cs' ds' (by omega) s hs2
            exact ⟨List.mem_cons_of_mem _ hto, List.mem_cons_of_mem _ hfrom⟩
        · rw [if_neg h2] at hs
          rcases List.mem_cons.mp hs with rfl | hs2
          · exact ⟨List.mem_cons_self _ _, List.mem_cons_self _ _⟩
          · obtain ⟨hto, hfrom⟩ :=
              ih cs' (⟨d.id, d.name, d.amount - min c.amount d.amount⟩ :: ds')
                (by simp; omega) s hs2
            refine ⟨List.mem_cons_of_mem _ hto, ?_⟩
            simpa using hfrom
      · rw [if_neg h1] at hs
        rcases List.mem_cons.mp hs with rfl | hs2
        · exact ⟨List.mem_cons_self _ _, List.mem_cons_self _ _⟩
        · obtain ⟨hto, hfrom⟩ :=
            ih (⟨c.id, c.name, c.amount - min c.amount d.amount⟩ :: cs') ds'
              (by simp; omega) s hs2
          refine ⟨?_, List.mem_cons_of_mem _ hfrom⟩
          simpa using hto

/-- Claim C10: for every balance mapping with duplicate-free participant
ids, no settlement suggestion is a self-transfer — the debtor and
creditor of each suggestion are distinct, because a participant is a
creditor only when `net > 0.01` and a debtor only when `net < -0.01`,
and no single balance satisfies both. -/
theorem settlements_no_self_transfer (bs : List BalEntry)
    (hnd : (bs.map (·.id)).Nodup) :
    ∀ s ∈ generate_settlement_suggestions bs,
      s.from_participant_id ≠ s.to_participant_id := by
  intro s hs heq
  simp only [generate_settlement_suggestions] at hs
  obtain ⟨hto, hfrom⟩ := settleLoop_ids
    ((sortByAmountDesc ((bs.filter (fun b => 1/100 < b.net)).map
      (fun b => MatchEntry.mk b.id b.name b.net))).length +
     (sortByAmountDesc ((bs.filter (fun b => b.net < -(1/100))).map
      (fun b => MatchEntry.mk b.id b.name |b.net|))).length)
    _ _ le_rfl s hs
  obtain ⟨e1, he1, hid1⟩ := List.mem_map.mp hto
  obtain ⟨e2, he2, hid2⟩ := List.mem_map.mp hfrom
  obtain ⟨b1, hb1, rfl⟩ :=
    List.mem_map.mp ((sortByAmountDesc_perm _).mem_iff.mp he1)
  obtain ⟨b2, hb2, rfl⟩ :=
    List.mem_map.mp ((sortByAmountDesc_perm _).mem_iff.mp he2)
  have hb1n : (1:ℚ)/100 < b1.net := by simpa using (List.mem_filter.mp hb1).2
  have hb2n : b2.net < -(1/100 : ℚ) := by simpa using (List.mem_filter.mp hb2).2
  have hids : b2.id = b1.id := hid2.trans (heq.trans hid1.symm)
  have hbb : b2 = b1 := List.inj_on_of_nodup_map hnd
    (List.mem_filter.mp hb2).1 (List.mem_filter.mp hb1).1 hids
  rw [hbb] at hb2n
  linarith

/-- Witness for C10 at balances `{A: +7.00, B: -7.00}`: the emitted
settlement `B pays A 7.00` transfers between two distinct participants. -/
theorem settlements_no_self_transfer_witness :
    (Settlement.mk 1 "B" 0 "A" 7 "B pays A $7.00").from_participant_id ≠
      (Settlement.mk 1 "B" 0 "A" 7 "B pays A $7.00").to_participant_id := by
  apply settlements_no_self_transfer [⟨0, "A", 7⟩, ⟨1, "B", -7⟩] (by decide)
  have habs : |(-7 : ℚ)| = 7 := by
    rw [abs_of_neg (by norm_num : (-7:ℚ) < 0)]
    norm_num
  norm_num [generate_settlement_suggestions, sortByAmountDesc,
    insertByAmountDesc, settleLoop, habs, formatMoney, rhedInt]
  decide

/-- `q` is an exact multiple of one cent.  Every 2-decimal `Decimal`
value of the system satisfies this. -/
def CentQ (q : ℚ) : Prop := ∃ k : ℤ, q = (k : ℚ) / 100

theorem centQ_sub {a b : ℚ} (ha : CentQ a) (hb : CentQ b) : CentQ (a - b) := by
  obtain ⟨k, rfl⟩ := ha
  obtain ⟨l, rfl⟩ := hb
  exact ⟨k - l, by push_cast; ring⟩

theorem centQ_neg {a : ℚ} (ha : CentQ a) : CentQ (-a) := by
  obtain ⟨k, rfl⟩ := ha
  exact ⟨-k, by push_cast; ring⟩

theorem centQ_min {a b : ℚ} (ha : CentQ a) (hb : CentQ b) : CentQ (min a b) := by
  rcases le_total a b with h | h
  · rw [min_eq_left h]; exact ha
  · rw [min_eq_right h]; exact hb

/-- A nonnegative cent multiple below the `0.01` tolerance is zero. -/
theorem centQ_eq_zero {q : ℚ} (h : CentQ q) (h0 : 0 ≤ q) (hlt : q < 1/100) :
    q = 0 := by
  obtain ⟨k, rfl⟩ := h
  have hk0 : (0 : ℤ) ≤ k := by
    have : (0:ℚ) ≤ (k:ℚ) := by nlinarith
    exact_mod_cast this
  have hk1 : k < 1 := by
    have : (k:ℚ) < 1 := by nlinarith
    exact_mod_cast this
  have : k = 0 := by omega
  rw [this]
  norm_num

theorem min_add_sub_helper (a b S1 S2 : ℚ) :
    a + min S1 (b - a + S2) = min (a + S1) (b + S2) := by
  rcases le_total S1 (b - a + S2) with h | h
  · rw [min_eq_left h, min_eq_left (by linarith)]
  · rw [min_eq_right h, min_eq_right (by linarith)]
    ring

theorem min_sub_add_helper (a b S1 S2 : ℚ) :
    b + min (a - b + S1) S2 = min (a + S1) (b + S2) := by
  rcases le_total (a - b + S1) S2 with h | h
  · rw [min_eq_left h, min_eq_left (by linarith)]
    ring
  · rw [min_eq_right h, min_eq_right (by linarith)]

theorem sum_amounts_nonneg (l : List MatchEntry)
    (h : ∀ e ∈ l, CentQ e.amount ∧ 1/100 ≤ e.amount) :
    0 ≤ (l.map (·.amount)).sum := by
  apply List.sum_nonneg
  intro x hx
  obtain ⟨e, he, rfl⟩ := List.mem_map.mp hx
  linarith [(h e he).2]

/-- When every working entry carries a cent multiple of at least `0.01`,
the two-pointer loop transfers exactly
`min (total creditor amount) (total debtor amount)`: no sub-tolerance dust
is ever dropped. -/
theorem settleLoop_total (n : ℕ) :
    ∀ (cs ds : List MatchEntry), cs.length + ds.length ≤ n →
      (∀ e ∈ cs, CentQ e.amount ∧ 1/100 ≤ e.amount) →
      (∀ e ∈ ds, CentQ e.amount ∧ 1/100 ≤ e.amount) →
      ((settleLoop cs ds).map (·.amount)).sum =
        min ((cs.map (·.amount)).sum) ((ds.map (·.amount)).sum) := by
  induction n with
  | zero =>
    intro cs ds hlen hc hd
    obtain rfl : cs = [] := List.length_eq_zero.mp (by omega)
    simp only [settleLoop, List.map_nil, List.sum_nil]
    exact (min_eq_left (sum_amounts_nonneg ds hd)).symm
  | succ n ih =>
    intro cs ds hlen hc hd
    match cs, ds with
    | [], ds =>
      simp only [settleLoop, List.map_nil, List.sum_nil]
      exact (min_eq_left (sum_amounts_nonneg ds hd)).symm
    | c :: cs', [] =>
      simp only [settleLoop, List.map_nil, List.sum_nil]
      exact (min_eq_right (sum_amounts_nonneg (c :: cs') hc)).symm
    | c :: cs', d :: ds' =>
      simp only [List.length_cons] at hlen
      have hcc := hc c (List.mem_cons_self c cs')
      have hdd := hd d (List.mem_cons_self d ds')
      have hc' : ∀ e ∈ cs', CentQ e.amount ∧ 1/100 ≤ e.amount :=
        fun e he => hc e (List.mem_cons_of_mem c he)
      have hd' : ∀ e ∈ ds', CentQ e.amount ∧ 1/100 ≤ e.amount :=
        fun e he => hd e (List.mem_cons_of_mem d he)
      have hcentmin : CentQ (min c.amount d.amount) := centQ_min hcc.1 hdd.1
      simp only [settleLoop]
      by_cases h1 : c.amount - min c.amount d.amount < 1/100
      · have h1z : c.amount - min c.amount d.amount = 0 :=
          centQ_eq_zero (centQ_sub hcc.1 hcentmin)
            (by linarith [min_le_left c.amount d.amount]) h1
        have htc : min c.amount d.amount = c.amount := by linarith
        rw [if_pos h1]
        by_cases h2 : d.amount - min c.amount d.amount < 1/100
        · have h2z : d.amount - min c.amount d.amount = 0 :=
            centQ_eq_zero (centQ_sub hdd.1 hcentmin)
              (by linarith [min_le_right c.amount d.amount]) h2
          have hcd : d.amount = c.amount := by linarith
          rw [if_pos h2]
          simp only [List.map_cons, List.sum_cons]
          rw [ih cs' ds' (by omega) hc' hd', htc, hcd]
          exact (min_add_add_left _ _ _).symm
        · rw [if_neg h2]
          simp only [List.map_cons, List.sum_cons]
          rw [ih cs' (⟨d.id, d.name, d.amount - min c.amount d.amount⟩ :: ds')
            (by simp; omega) hc' ?_]
          · simp only [List.map_cons, List.sum_cons]
            rw [htc]
            exact min_add_sub_helper c.amount d.amount _ _
          · intro e he
            rcases List.mem_cons.mp he with rfl | he2
            · exact ⟨centQ_sub hdd.1 hcentmin, not_lt.mp h2⟩
            · exact hd' e he2
      · have htd : min c.amount d.amount = d.amount := by
          rcases le_total c.amount d.amount with h | h
          · exact absurd (by rw [min_eq_left h, sub_self]; norm_num) h1
          · exact min_eq_right h
        rw [if_neg h1]
        simp only [List.map_cons, List.sum_cons]
        rw [ih (⟨c.id, c.name, c.amount - min c.amount d.amount⟩ :: cs') ds'
          (by simp; omega) ?_ hd']
        · simp only [List.map_cons, List.sum_cons]
          rw [htd]
          exact min_sub_add_helper c.amount d.amount _ _
        · intro e he
          rcases List.mem_cons.mp he with rfl | he2
          · exact ⟨centQ_sub hcc.1 hcentmin, not_lt.mp h1⟩
          · exact hc' e he2

/-- The working creditor amounts sum to `sum (max 0 net)` over all
balance entries, when every nonzero net balance exceeds the tolerance. -/
theorem creditors_sum_eq (bs : List BalEntry)
    (htol : ∀ b ∈ bs, b.net = 0 ∨ 1/100 < |b.net|) :
    ((((bs.filter (fun b => 1/100 < b.net)).map
      (fun b => MatchEntry.mk b.id b.name b.net)).map (·.amount)).sum) =
      (bs.map (fun b => max 0 b.net)).sum := by
  induction bs with
  | nil => rfl
  | cons b t ih =>
    have htol' : ∀ x ∈ t, x.net = 0 ∨ 1/100 < |x.net| :=
      fun x hx => htol x (List.mem_cons_of_mem b hx)
    by_cases h : (1:ℚ)/100 < b.net
    · rw [List.filter_cons_of_pos (by simpa using h)]
      simp only [List.map_cons, List.sum_cons]
      rw [ih htol', max_eq_right (by linarith : (0:ℚ) ≤ b.net)]
    · rw [List.filter_cons_of_neg (by simpa using h)]
      simp only [List.map_cons, List.sum_cons]
      have hz : max 0 b.net = 0 := by
        rcases htol b (List.mem_cons_self b t) with h0 | habs
        · rw [h0]
          exact max_self 0
        · refine max_eq_left ?_
          by_contra hpos
          push_neg at hpos
          rw [abs_of_pos hpos] at habs
          exact h (by linarith)
      rw [ih htol', hz, zero_add]

/-- The working debtor amounts sum to `sum (max 0 (-net))` over all
balance entries, when every nonzero net balance exceeds the tolerance. -/
theorem debtors_sum_eq (bs : List BalEntry)
    (htol : ∀ b ∈ bs, b.net = 0 ∨ 1/100 < |b.net|) :
    ((((bs.filter (fun b => b.net < -(1/100))).map
      (fun b => MatchEntry.mk b.id b.name |b.net|)).map (·.amount)).sum) =
      (bs.map (fun b => max 0 (-b.net))).sum := by
  induction bs with
  | nil => rfl
  | cons b t ih =>
    have htol' : ∀ x ∈ t, x.net = 0 ∨ 1/100 < |x.net| :=
      fun x hx => htol x (List.mem_cons_of_mem b hx)
    by_cases h : b.net < -(1/100 : ℚ)
    · rw [List.filter_cons_of_pos (by simpa using h)]
      simp only [List.map_cons, List.sum_cons]
      rw [ih htol']
      have : |b.net| = -b.net := abs_of_neg (by linarith)
      rw [this, max_eq_right (by linarith : (0:ℚ) ≤ -b.net)]
    · rw [List.filter_cons_of_neg (by simpa using h)]
      simp only [List.map_cons, List.sum_cons]
      have hz : max 0 (-b.net) = 0 := by
        rcases htol b (List.mem_cons_self b t) with h0 | habs
        · rw [h0, neg_zero]
          exact max_self 0
        · refine max_eq_left ?_
          by_contra hneg
          push_neg at hneg
          have hlt : b.net < 0 := by linarith
          rw [abs_of_neg hlt] at habs
          exact h (by linarith)
      rw [ih htol', hz, zero_add]

theorem max_zero_sub_max_zero_neg (x : ℚ) : max 0 x - max 0 (-x) = x := by
  rcases le_total 0 x with h | h
  · rw [max_eq_right h, max_eq_left (by linarith)]
    ring
  · rw [max_eq_left h, max_eq_right (by linarith)]
    ring

/-- When the net balances sum to zero, the total positive part equals the
total negative part. -/
theorem sum_max_eq (bs : List BalEntry)
    (hzero : (bs.map (·.net)).sum = 0) :
    (bs.map (fun b => max 0 b.net)).sum =
      (bs.map (fun b => max 0 (-b.net))).sum := by
  have h := sum_map_sub bs (fun b => max 0 b.net) (fun b => max 0 (-b.net))
  rw [show (fun b : BalEntry => max 0 b.net - max 0 (-b.net)) =
      (fun b : BalEntry => b.net) from
    funext fun b => max_zero_sub_max_zero_neg b.net] at h
  have h2 : (bs.map (fun b : BalEntry => b.net)).sum = 0 := hzero
  linarith

/-- The sorted working creditor entries all carry cent multiples of at
least `0.01`, when all net balances are cent multiples. -/
theorem creditors_inv (bs : List BalEntry)
    (hcent : ∀ b ∈ bs, CentQ b.net) :
    ∀ e ∈ sortByAmountDesc ((bs.filter (fun b => 1/100 < b.net)).map
      (fun b => MatchEntry.mk b.id b.name b.net)),
      CentQ e.amount ∧ 1/100 ≤ e.amount := by
  intro e he
  refine ⟨?_, creditors_amount_ge bs e he⟩
  have he2 := (sortByAmountDesc_perm _).mem_iff.mp he
  obtain ⟨b, hb, rfl⟩ := List.mem_map.mp he2
  exact hcent b (List.mem_filter.mp hb).1

/-- The sorted working debtor entries all carry cent multiples of at
least `0.01`, when all net balances are cent multiples. -/
theorem debtors_inv (bs : List BalEntry)
    (hcent : ∀ b ∈ bs, CentQ b.net) :
    ∀ e ∈ sortByAmountDesc ((bs.filter (fun b => b.net < -(1/100))).map
      (fun b => MatchEntry.mk b.id b.name |b.net|)),
      CentQ e.amount ∧ 1/100 ≤ e.amount := by
  intro e he
  refine ⟨?_, debtors_amount_ge bs e he⟩
  have he2 := (sortByAmountDesc_perm _).mem_iff.mp he
  obtain ⟨b, hb, rfl⟩ := List.mem_map.mp he2
  have hcond : b.net < -(1/100 : ℚ) := by
    simpa using (List.mem_filter.mp hb).2
  show CentQ |b.net|
  rw [abs_of_neg (by linarith)]
  exact centQ_neg (hcent b (List.mem_filter.mp hb).1)

theorem sort_sum_amounts (l : List MatchEntry) :
    ((sortByAmountDesc l).map (·.amount)).sum = (l.map (·.amount)).sum :=
  ((sortByAmountDesc_perm l).map _).sum_eq

/-- Counterexample to claim C3 as stated: for balances
`{A: +0.01, B: -0.01}` the settlement plan is empty (both balances sit
inside the tolerance band), so the total transferred amount is `0`, while
`sum (max 0 net)` is `0.01`. -/
theorem settlement_total_counterexample :
    total_settlement_amount [⟨0, "A", 1/100⟩, ⟨1, "B", -(1/100)⟩] = 0 ∧
    (([⟨0, "A", 1/100⟩, ⟨1, "B", -(1/100)⟩] : List BalEntry).map
      (fun b => max 0 b.net)).sum = 1/100 ∧
    (0 : ℚ) ≠ 1/100 := by
  refine ⟨?_, ?_, by norm_num⟩
  · norm_num [total_settlement_amount, generate_settlement_suggestions,
      settleLoop, sortByAmountDesc, insertByAmountDesc]
  · norm_num [max_def]

/-- Claim C3 (amended): for every balance mapping whose net balances are
integer multiples of `0.01`, sum to zero, and are each either zero or
greater than `0.01` in absolute value, the settlement plan produced by
`generate_settlement_suggestions` has total transferred amount equal to
`sum (max 0 net_balance)` over all participants. -/
theorem settlement_total_eq_sum_positive_nets (bs : List BalEntry)
    (hcent : ∀ b ∈ bs, CentQ b.net)
    (hzero : (bs.map (·.net)).sum = 0)
    (htol : ∀ b ∈ bs, b.net = 0 ∨ 1/100 < |b.net|) :
    total_settlement_amount bs = (bs.map (fun b => max 0 b.net)).sum := by
  simp only [total_settlement_amount, generate_settlement_suggestions]
  have hci := creditors_inv bs hcent
  have hdi := debtors_inv bs hcent
  have hmain := settleLoop_total _ _ _ le_rfl hci hdi
  rw [hmain, sort_sum_amounts, sort_sum_amounts, creditors_sum_eq bs htol,
    debtors_sum_eq bs htol, ← sum_max_eq bs hzero]
  exact min_self _

/-- Witness for the amended C3 at the spec's settlement vector
`{A: +50.00, B: -30.00, C: -20.00}`: the plan transfers `50.00` in total,
which is the sum of the positive net balances. -/
theorem settlement_total_eq_sum_positive_nets_witness :
    total_settlement_amount [⟨0, "A", 50⟩, ⟨1, "B", -30⟩, ⟨2, "C", -20⟩] =
      (([⟨0, "A", 50⟩, ⟨1, "B", -30⟩, ⟨2, "C", -20⟩] : List BalEntry).map
        (fun b => max 0 b.net)).sum := by
  apply settlement_total_eq_sum_positive_nets
  · intro b hb
    fin_cases hb
    · exact ⟨5000, by norm_num⟩
    · exact ⟨-3000, by norm_num⟩
    · exact ⟨-2000, by norm_num⟩
  · norm_num
  · intro b hb
    fin_cases hb
    · refine Or.inr ?_
      rw [show |(50:ℚ)| = 50 from abs_of_pos (by norm_num)]
      norm_num
    · refine Or.inr ?_
      rw [show |(-30:ℚ)| = 30 by rw [abs_of_neg (by norm_num : (-30:ℚ) < 0)]; norm_num]
      norm_num
    · refine Or.inr ?_
      rw [show |(-20:ℚ)| = 20 by rw [abs_of_neg (by norm_num : (-20:ℚ) < 0)]; norm_num]
      norm_num

end SplitWise
